import Mathlib

/-!
Verification development for the FF1 format-preserving encryption engine
(`src/ff1.rs` of the `fpe` crate).

The Feistel driver, the radix classifier, the CBC-MAC PRF and the
S-expander are translated from the Rust source.  Bytes are modelled as
natural numbers, 16-byte cipher blocks as `List Nat`, and the underlying
block cipher as an arbitrary function `List Nat → List Nat` (an opaque
keyed permutation, exactly how the source consumes it).

The `NumeralString`/`Operations` implementations (the `alloc` module of
the crate) are not part of the provided source; following the contract
stated in the trait documentation of `ff1.rs`, a numeral string is
modelled as a big-endian list of numerals, with `NUM`/`STR` conversions
realised by exact arithmetic.
-/

namespace FPE

/-! ### Bit-level helpers (u32 `count_ones` / `leading_zeros`)

`popBitsF` and `bitLenF` are fuel-indexed structural recursions; with
fuel `n` they compute the exact popcount, respectively bit-length, of
`n` (the recursion halves its argument, so fuel `n` is always enough).
-/

/-- Fuel-indexed popcount: with sufficient fuel, the number of set bits of `n`.
Models `u32::count_ones`. -/
def popBitsF : Nat → Nat → Nat
  | 0, _ => 0
  | f + 1, n => if n = 0 then 0 else n % 2 + popBitsF f (n / 2)

/-- `radix.count_ones()` for a `u32` value. -/
def countOnes (n : Nat) : Nat := popBitsF n n

/-- Fuel-indexed bit length: with sufficient fuel, the number of binary digits of `n`. -/
def bitLenF : Nat → Nat → Nat
  | 0, _ => 0
  | f + 1, n => if n = 0 then 0 else bitLenF f (n / 2) + 1

/-- Bit length of `n`; for `1 ≤ n < 2^32`, `bitLen n - 1` equals the Rust
expression `31 - n.leading_zeros()` (the index of the highest set bit). -/
def bitLen (n : Nat) : Nat := bitLenF n n

/-- Ceiling base-2 logarithm: the least `k` with `n ≤ 2^k`. -/
def clog2 (n : Nat) : Nat := if n ≤ 1 then 0 else bitLen (n - 1)

/-! ### Radix classifier -/

/-- Error returned when the radix is outside `[2, 2^16]`. -/
structure InvalidRadix where
  radix : Nat
deriving DecidableEq

/-- Errors returned by `encrypt`/`decrypt` (module `error` of the crate). -/
inductive NumeralStringError where
  | invalidForRadix (radix : Nat)
  | tooShort (ns_len : Nat) (min_len : Nat)
  | tooLong (ns_len : Nat) (max_len : Nat)
deriving DecidableEq

/-- The two radix variants of `ff1.rs`. -/
inductive Radix where
  | any (radix : Nat) (min_len : Nat)
  | powerTwo (radix : Nat) (min_len : Nat) (log_radix : Nat)
deriving DecidableEq

/-- The loop of the `Any` branch of `Radix::from_u32`:
`while domain < 10^6 { domain *= radix; min_len += 1 }`, returning
`(min_len, domain)`.  The recursion is driven by a fuel argument; fuel 20
always suffices for `radix ≥ 2` since the domain at least doubles each
step and `2 · 2^19 ≥ 10^6` (proved below in `anyLoopF_spec`). -/
def anyLoopF (r : Nat) : Nat → Nat → Nat → Nat × Nat
  | 0, domain, len => (len, domain)
  | fuel + 1, domain, len =>
    if domain < 1000000 then anyLoopF r fuel (domain * r) (len + 1) else (len, domain)

/-- `Radix::from_u32`. -/
def Radix.fromU32 (radix : Nat) : Except InvalidRadix Radix :=
  if radix < 2 ∨ 65536 < radix then
    .error ⟨radix⟩
  else if countOnes radix = 1 then
    let lg := bitLen radix - 1
    .powerTwo radix (max ((20 + lg - 1) / lg) 2) lg |> .ok
  else
    .any radix (anyLoopF radix 20 radix 1).1 |> .ok

/-- `Radix::to_u32`. -/
def Radix.toU32 : Radix → Nat
  | .any r _ => r
  | .powerTwo r _ _ => r

/-- The stored `min_len` of either variant. -/
def Radix.minLen : Radix → Nat
  | .any _ m => m
  | .powerTwo _ m _ => m

/-- `Radix::check_ns_length` with `max_len = u32::MAX`. -/
def Radix.checkNsLength (rx : Radix) (ns_len : Nat) : Except NumeralStringError Unit :=
  if ns_len < rx.minLen then .error (.tooShort ns_len rx.minLen)
  else if 4294967295 < ns_len then .error (.tooLong ns_len 4294967295)
  else .ok ()

/-- `Radix::calculate_b`, that is `b = ⌈⌈v·log₂(radix)⌉/8⌉`.  The `PowerTwo`
branch is the exact integer arithmetic of the source.  The `Any` branch is
Modelled from the spec: the source computes it with `f64` `libm::ceil`/`log2`,
which has no shallow embedding; the spec requires the floating-point result to
agree with the exact integer ceiling, which is what this definition computes
(`⌈v·log₂(radix)⌉ = clog2 (radix^v)`). -/
def Radix.calculateB : Radix → Nat → Nat
  | .any r _, v => (clog2 (r ^ v) + 7) / 8
  | .powerTwo _ _ lg, v => (v * lg + 7) / 8

/-! ### Numeral strings and the `Operations` contract

Modelled from the spec: the concrete `NumeralString` realisations live in
the crate's `alloc` module, which is not part of the provided source.  A
numeral string is a big-endian list of numerals; `NUM`/`STR` and the
modular `add/sub` operations are realised by exact integer arithmetic,
exactly as the `Operations` trait documentation specifies. -/

/-- `NUM_radix(X)`: the big-endian value of a numeral string. -/
def numNS (r : Nat) (xs : List Nat) : Nat := xs.foldl (fun acc dgt => acc * r + dgt) 0

/-- `STR_radix(m, val)`: the length-`m` big-endian numeral string of `val mod r^m`. -/
def strNS (r : Nat) : Nat → Nat → List Nat
  | 0, _ => []
  | m + 1, w => strNS r m (w / r) ++ [w % r]

/-- `STR^b_256(NUM(X))`: the `b`-byte big-endian representation used by
`Operations::to_be_bytes`. -/
def toBEBytes (b w : Nat) : List Nat := strNS 256 b w

/-- `NUM(S)`: a big-endian byte sequence read as an integer. -/
def numBE (bytes : List Nat) : Nat := numNS 256 bytes

/-- `NumeralString::is_valid`: every numeral must be `< radix`. -/
def nsIsValid (r : Nat) (xs : List Nat) : Bool := xs.all (fun dgt => decide (dgt < r))

/-! ### The CBC-MAC PRF -/

/-- Bytewise XOR of two blocks (`zip` + `^=` in the source). -/
def xorBytes (a b : List Nat) : List Nat := List.zipWith (fun x y => x ^^^ y) a b

/-- State of `Prf`: `iv` is the running CBC state (equal to the last
ciphertext block, which is what `buf` holds at a block boundary), and
`pending` the partial input buffered since the last boundary (`offset`
is `pending.length`). -/
structure PrfState where
  iv : List Nat
  pending : List Nat
deriving DecidableEq

/-- `Prf::new`: zero IV, empty buffer. -/
def prfEmpty : PrfState := ⟨List.replicate 16 0, []⟩

/-- Absorb a single byte: once 16 bytes are buffered, XOR them into the CBC
state and encrypt (`encrypt_blocks_mut` on the full buffer). -/
def prfUpd1 (E : List Nat → List Nat) (st : PrfState) (byte : Nat) : PrfState :=
  let p := st.pending ++ [byte]
  if p.length = 16 then ⟨E (xorBytes st.iv p), []⟩ else ⟨st.iv, p⟩

/-- `Prf::update`.  The Rust code copies chunk-wise; byte-at-a-time absorption
is extensionally the same computation. -/
def prfUpdate (E : List Nat → List Nat) (st : PrfState) (data : List Nat) : PrfState :=
  data.foldl (prfUpd1 E) st

/-- The PRF state shared by all rounds: `P || tweak || 0^pad` absorbed into a
fresh PRF.  `encrypt`/`decrypt` clone this state each round. -/
def prfCommon (E : List Nat → List Nat) (p tweak : List Nat) (pad : Nat) : PrfState :=
  prfUpdate E (prfUpdate E (prfUpdate E prfEmpty p) tweak) (List.replicate pad 0)

/-- The per-round PRF state: the common state plus `[i] || NUM_bytes`.
`Prf::output` then asserts `offset == 0` (i.e. `pending = []`, established by
`prf_offset_never_fails`) and returns the current block, i.e. `iv`. -/
def roundPrf (E : List Nat → List Nat) (c : PrfState) (i : Nat) (bs : List Nat) : PrfState :=
  prfUpdate E (prfUpdate E c [i]) bs

/-! ### The prefix `P` and the zero padding -/

/-- Big-endian bytes of a value cast to `u32` (`(x as u32).to_be_bytes()`). -/
def u32BE (x : Nat) : List Nat :=
  [x / 16777216 % 256, x / 65536 % 256, x / 256 % 256, x % 256]

/-- The literal array `[1, 2, 1, 0, 0, 0, 10, u as u8, 0, ..., 0]`. -/
def pBase (u : Nat) : List Nat := [1, 2, 1, 0, 0, 0, 10, u % 256, 0, 0, 0, 0, 0, 0, 0, 0]

/-- `copy_from_slice` into `l[s .. s + repl.length]`. -/
def setRange (l : List Nat) (s : Nat) (repl : List Nat) : List Nat :=
  l.take s ++ repl ++ l.drop (s + repl.length)

/-- The 16-byte prefix `P` as built (identically) by `encrypt` and `decrypt`:
the base array, then `p[3..6] = radix.to_be_bytes()[1..]`,
`p[8..12] = (n as u32).to_be_bytes()`, `p[12..16] = (t as u32).to_be_bytes()`.
Note it takes no round-count argument: `P[6]` is the constant `10`. -/
def buildP (radix u n t : Nat) : List Nat :=
  setRange (setRange (setRange (pBase u) 3 ((u32BE radix).drop 1)) 8 (u32BE n)) 12 (u32BE t)

/-- A `usize` value reinterpreted as an `i32` (`t as i32`): reduce mod `2^32`,
then read as a two's-complement 32-bit signed value. -/
def i32ofNat (n : Nat) : Int :=
  let m := n % 4294967296
  if m < 2147483648 then (m : Int) else (m : Int) - 4294967296

/-- The number of zero-padding bytes
`((((-(t as i32) - (b as i32) - 1) % 16) + 16) % 16)`; Rust `%` on `i32` is
truncated remainder, i.e. `Int.tmod`. -/
def padLen (t b : Nat) : Nat :=
  (((-(i32ofNat t) - i32ofNat b - 1).tmod 16 + 16).tmod 16).toNat

/-! ### The S-expander -/

/-- One counter block of `generate_s`: `E(R ⊕ j)` where the big-endian 128-bit
representation of `j` is XORed bytewise into `R`. -/
def sBlock (E : List Nat → List Nat) (r : List Nat) (j : Nat) : List Nat :=
  E (xorBytes r (toBEBytes 16 j))

/-- `generate_s`: the first `d` bytes of `R || E(R⊕1) || E(R⊕2) || …`, with the
counter running over `1 ≤ j < (d + 15) / 16` as in the source. -/
def generateS (E : List Nat → List Nat) (r : List Nat) (d : Nat) : List Nat :=
  (r ++ (((List.range' 1 ((d + 15) / 16 - 1)).map (sBlock E r)).flatten)).take d

/-- The unbounded byte stream of the spec, cut after `m` counter blocks:
`R || E(R⊕1) || … || E(R⊕m)`. -/
def sSpecStream (E : List Nat → List Nat) (r : List Nat) (m : Nat) : List Nat :=
  r ++ ((List.range' 1 m).map (sBlock E r)).flatten

/-! ### The Feistel driver -/

/-- The integer `y = NUM(S)` of round `i`, where `S` is the `d`-byte expansion
of the PRF output over `P || tweak || 0^pad || [i] || STR^b_256(NUM(half))`. -/
def roundY (E : List Nat → List Nat) (rx : Radix) (b d : Nat) (prf0 : PrfState)
    (i : Nat) (half : List Nat) : Nat :=
  numBE (generateS E (roundPrf E prf0 i (toBEBytes b (numNS rx.toU32 half))).iv d)

/-- One encryption round (steps 6.i–6.ix of `FF1::encrypt`):
`m = u` if `i` even else `v`; `C = A.add_mod_exp(S, radix, m)`; `A ← B; B ← C`. -/
def encRound (E : List Nat → List Nat) (rx : Radix) (b d u v : Nat) (prf0 : PrfState)
    (st : List Nat × List Nat) (i : Nat) : List Nat × List Nat :=
  let y := roundY E rx b d prf0 i st.2
  let m := if i % 2 = 0 then u else v
  (st.2, strNS rx.toU32 m ((numNS rx.toU32 st.1 + y) % rx.toU32 ^ m))

/-- One decryption round (`FF1::decrypt`): the suffix absorbs `A`;
`C = B.sub_mod_exp(S, radix, m)`; `B ← A; A ← C`. -/
def decRound (E : List Nat → List Nat) (rx : Radix) (b d u v : Nat) (prf0 : PrfState)
    (st : List Nat × List Nat) (i : Nat) : List Nat × List Nat :=
  let y := roundY E rx b d prf0 i st.1
  let m := if i % 2 = 0 then u else v
  (strNS rx.toU32 m ((numNS rx.toU32 st.2 + (rx.toU32 ^ m - y % rx.toU32 ^ m)) % rx.toU32 ^ m),
    st.1)

/-- The pair of halves produced by the encryption loop (steps 1–6 of
`FF1::encrypt`, after the validity and length checks). -/
def encState (E : List Nat → List Nat) (rx : Radix) (rounds : Nat)
    (tweak x : List Nat) : List Nat × List Nat :=
  let n := x.length
  let t := tweak.length
  let xa := x.take (n / 2)
  let xb := x.drop (n / 2)
  let u := xa.length
  let v := xb.length
  let b := rx.calculateB v
  let d := 4 * ((b + 3) / 4) + 4
  let prf0 := prfCommon E (buildP rx.toU32 u n t) tweak (padLen t b)
  (List.range rounds).foldl (encRound E rx b d u v prf0) (xa, xb)

/-- The pair of halves produced by the decryption loop; the round index runs
`rounds − 1, …, 0` (`let i = self.faistel_rounds - 1 - i`). -/
def decState (E : List Nat → List Nat) (rx : Radix) (rounds : Nat)
    (tweak x : List Nat) : List Nat × List Nat :=
  let n := x.length
  let t := tweak.length
  let xa := x.take (n / 2)
  let xb := x.drop (n / 2)
  let u := xa.length
  let v := xb.length
  let b := rx.calculateB v
  let d := 4 * ((b + 3) / 4) + 4
  let prf0 := prfCommon E (buildP rx.toU32 u n t) tweak (padLen t b)
  (List.range rounds).foldl
    (fun st i => decRound E rx b d u v prf0 st (rounds - 1 - i)) (xa, xb)

/-- `FF1::encrypt`: validity check, then length check, then the Feistel loop,
returning `A || B`. -/
def encrypt (E : List Nat → List Nat) (rx : Radix) (rounds : Nat)
    (tweak x : List Nat) : Except NumeralStringError (List Nat) :=
  if nsIsValid rx.toU32 x then
    match rx.checkNsLength x.length with
    | .error e => .error e
    | .ok _ =>
      let st := encState E rx rounds tweak x
      .ok (st.1 ++ st.2)
  else .error (.invalidForRadix rx.toU32)

/-- `FF1::decrypt`. -/
def decrypt (E : List Nat → List Nat) (rx : Radix) (rounds : Nat)
    (tweak x : List Nat) : Except NumeralStringError (List Nat) :=
  if nsIsValid rx.toU32 x then
    match rx.checkNsLength x.length with
    | .error e => .error e
    | .ok _ =>
      let st := decState E rx rounds tweak x
      .ok (st.1 ++ st.2)
  else .error (.invalidForRadix rx.toU32)

/-- Decidable equality on `Except`, so that concrete runs of
`encrypt`/`decrypt` can be checked by evaluation. -/
instance {ε α : Type} [DecidableEq ε] [DecidableEq α] : DecidableEq (Except ε α) := fun
  | .error e, .error f => decidable_of_iff (e = f) (by simp)
  | .error _, .ok _ => .isFalse (by simp)
  | .ok _, .error _ => .isFalse (by simp)
  | .ok a, .ok b => decidable_of_iff (a = b) (by simp)

/-- A concrete block cipher for witnesses: the identity permutation. -/
def idE : List Nat → List Nat := fun blk => blk

/-- A concrete block cipher with 16-byte outputs for witnesses. -/
def constE : List Nat → List Nat := fun _ => List.replicate 16 7

/-! ## Lemmas about `NUM` and `STR` -/

theorem strNS_length (r : Nat) : ∀ m w : Nat, (strNS r m w).length = m := by
  intro m
  induction m with
  | zero => intro w; rfl
  | succ m ih => intro w; simp [strNS, ih]

theorem strNS_digit_lt (r : Nat) (hr : 0 < r) :
    ∀ m w : Nat, ∀ dgt ∈ strNS r m w, dgt < r := by
  intro m
  induction m with
  | zero => intro w dgt h; simp [strNS] at h
  | succ m ih =>
    intro w dgt h
    simp only [strNS, List.mem_append, List.mem_singleton] at h
    rcases h with h | h
    · exact ih (w / r) dgt h
    · subst h; exact Nat.mod_lt _ hr

theorem toBEBytes_length (b w : Nat) : (toBEBytes b w).length = b := strNS_length 256 b w

theorem numNS_append (r : Nat) (xs : List Nat) (dgt : Nat) :
    numNS r (xs ++ [dgt]) = numNS r xs * r + dgt := by
  simp [numNS, List.foldl_append]

theorem numNS_lt_pow (r : Nat) (hr : 0 < r) (xs : List Nat)
    (hd : ∀ dgt ∈ xs, dgt < r) : numNS r xs < r ^ xs.length := by
  induction xs using List.reverseRecOn with
  | nil => simp [numNS]
  | append_singleton ys dgt ih =>
    have hdy : ∀ e ∈ ys, e < r := fun e he => hd e (by simp [he])
    have h1 : numNS r ys < r ^ ys.length := ih hdy
    have h2 : dgt < r := hd dgt (by simp)
    have h3 : numNS r ys + 1 ≤ r ^ ys.length := h1
    calc numNS r (ys ++ [dgt]) = numNS r ys * r + dgt := numNS_append r ys dgt
      _ < numNS r ys * r + r := by omega
      _ = (numNS r ys + 1) * r := by ring
      _ ≤ r ^ ys.length * r := Nat.mul_le_mul_right r h3
      _ = r ^ (ys ++ [dgt]).length := by simp [pow_succ]

theorem strNS_numNS (r : Nat) (hr : 0 < r) (xs : List Nat)
    (hd : ∀ dgt ∈ xs, dgt < r) : strNS r xs.length (numNS r xs) = xs := by
  induction xs using List.reverseRecOn with
  | nil => rfl
  | append_singleton ys dgt ih =>
    have hdy : ∀ e ∈ ys, e < r := fun e he => hd e (by simp [he])
    have h2 : dgt < r := hd dgt (by simp)
    have hdiv : (numNS r ys * r + dgt) / r = numNS r ys := by
      rw [Nat.mul_comm (numNS r ys) r, Nat.mul_add_div hr]
      simp [Nat.div_eq_of_lt h2]
    have hmod : (numNS r ys * r + dgt) % r = dgt := by
      rw [Nat.mul_comm (numNS r ys) r, Nat.mul_add_mod]
      exact Nat.mod_eq_of_lt h2
    simp only [List.length_append, List.length_singleton, numNS_append, strNS, hdiv, hmod]
    rw [ih hdy]

theorem numNS_strNS (r : Nat) (hr : 0 < r) :
    ∀ m w : Nat, numNS r (strNS r m w) = w % r ^ m := by
  intro m
  induction m with
  | zero => intro w; simp [strNS, numNS, Nat.mod_one]
  | succ m ih =>
    intro w
    rw [strNS, numNS_append, ih (w / r)]
    have key : w % (r * r ^ m) = w % r + r * (w / r % r ^ m) := Nat.mod_mul
    calc w / r % r ^ m * r + w % r
        = w % r + r * (w / r % r ^ m) := by ring
      _ = w % (r * r ^ m) := key.symm
      _ = w % r ^ (m + 1) := by rw [pow_succ, Nat.mul_comm]

/-! ## The prefix `P` (claim C5) -/

theorem buildP_eq (radix u n t : Nat) :
    buildP radix u n t =
      [1, 2, 1] ++ (u32BE radix).drop 1 ++ [10, u % 256] ++ u32BE n ++ u32BE t := by
  simp [buildP, setRange, pBase, u32BE]

theorem buildP_length (radix u n t : Nat) : (buildP radix u n t).length = 16 := by
  simp [buildP_eq, u32BE]

/-- C5: the 16-byte prefix built by both `encrypt` and `decrypt` is
`0x01 0x02 0x01`, the low three big-endian bytes of the radix, the constant
`0x0A`, `u mod 256`, the big-endian `u32` value of `n`, and the big-endian
`u32` tweak length.  `buildP` takes no round-count argument — `encrypt` and
`decrypt` build `P` identically for every engine, whatever
`faistel_rounds` was passed to the constructor — so byte 6 is `0x0A`
unconditionally. -/
theorem ff1_prefix_bytes (radix u n t : Nat) :
    buildP radix u n t =
      [1, 2, 1] ++ (u32BE radix).drop 1 ++ [10, u % 256] ++ u32BE n ++ u32BE t ∧
    (buildP radix u n t)[6]? = some 10 := by
  refine ⟨buildP_eq radix u n t, ?_⟩
  rw [buildP_eq]
  rfl

/-! ## The zero padding and the PRF block boundary (claim C6) -/

theorem tmod16_norm (x : Int) : (x.tmod 16 + 16).tmod 16 = x % 16 := by
  rcases x with m | m
  · have h1 : (Int.ofNat m).tmod 16 = Int.ofNat (m % 16) := rfl
    rw [h1]
    have h0 : (0 : Int) ≤ Int.ofNat (m % 16) + 16 := by
      simp only [Int.ofNat_eq_natCast]
      positivity
    rw [Int.tmod_eq_emod h0 (by norm_num)]
    simp only [Int.ofNat_eq_natCast]
    omega
  · have h1 : (Int.negSucc m).tmod 16 = -Int.ofNat ((m + 1) % 16) := rfl
    rw [h1]
    have h0 : (0 : Int) ≤ -Int.ofNat ((m + 1) % 16) + 16 := by
      simp only [Int.ofNat_eq_natCast]
      omega
    rw [Int.tmod_eq_emod h0 (by norm_num), Int.negSucc_eq]
    simp only [Int.ofNat_eq_natCast]
    omega

theorem padLen_eq (t b : Nat) : padLen t b = (16 - (t + b + 1) % 16) % 16 := by
  unfold padLen
  rw [tmod16_norm]
  simp only [i32ofNat]
  split_ifs <;> omega

theorem prfUpd1_pending (E : List Nat → List Nat) (st : PrfState) (byte : Nat)
    (h : st.pending.length < 16) :
    (prfUpd1 E st byte).pending.length = (st.pending.length + 1) % 16 ∧
    (prfUpd1 E st byte).pending.length < 16 := by
  simp only [prfUpd1]
  split_ifs with hf
  · simp only [List.length_append, List.length_singleton] at hf
    simp
    omega
  · simp only [List.length_append, List.length_singleton] at hf
    simp
    omega

theorem prfUpdate_pending (E : List Nat → List Nat) (data : List Nat) :
    ∀ st : PrfState, st.pending.length < 16 →
      (prfUpdate E st data).pending.length = (st.pending.length + data.length) % 16 ∧
      (prfUpdate E st data).pending.length < 16 := by
  induction data with
  | nil => intro st h; simp [prfUpdate]; omega
  | cons byte rest ih =>
    intro st h
    have h1 := prfUpd1_pending E st byte h
    have h2 := ih (prfUpd1 E st byte) h1.2
    simp only [prfUpdate, List.foldl_cons] at h2 ⊢
    rw [h1.1] at h2
    refine ⟨?_, h2.2⟩
    rw [h2.1]
    simp only [List.length_cons]
    omega

/-- C6: the bytes absorbed ahead of each `Prf::output` call —
`P` (16 bytes), the tweak (`t` bytes), `(−t−b−1) mod 16` zero bytes, the
round byte and the `b` bytes of `NUM(half)` — always total a multiple of
16, so `output`'s `assert_eq!(offset, 0)` never fires in `encrypt` or
`decrypt`: the PRF state consulted each round has an empty partial
buffer. -/
theorem prf_offset_never_fails (E : List Nat → List Nat) (radix u n : Nat)
    (tweak : List Nat) (b i : Nat) (bs : List Nat) (hbs : bs.length = b) :
    (roundPrf E (prfCommon E (buildP radix u n tweak.length) tweak
        (padLen tweak.length b)) i bs).pending = [] ∧
    (16 + tweak.length + padLen tweak.length b + 1 + b) % 16 = 0 := by
  have hpad : padLen tweak.length b = (16 - (tweak.length + b + 1) % 16) % 16 :=
    padLen_eq _ _
  have hmod : (16 + tweak.length + padLen tweak.length b + 1 + b) % 16 = 0 := by omega
  refine ⟨?_, hmod⟩
  have h0 : prfEmpty.pending.length < 16 := by simp [prfEmpty]
  have h1 := prfUpdate_pending E (buildP radix u n tweak.length) prfEmpty h0
  have h2 := prfUpdate_pending E tweak _ h1.2
  have h3 := prfUpdate_pending E (List.replicate (padLen tweak.length b) 0) _ h2.2
  have h4 := prfUpdate_pending E [i] _ h3.2
  have h5 := prfUpdate_pending E bs _ h4.2
  simp only [roundPrf, prfCommon]
  rw [← List.length_eq_zero]
  simp only [prfCommon] at h5 h4 h3 h2
  rw [h4.1, h3.1, h2.1, h1.1] at h5
  rw [h5.1]
  simp only [buildP_length, List.length_replicate, List.length_singleton, hbs]
  simp only [prfEmpty, List.length_nil]
  omega

/-- Witness for `prf_offset_never_fails` at a concrete engine and round. -/
theorem prf_offset_never_fails_witness :
    (roundPrf idE (prfCommon idE (buildP 10 3 7 ([9, 9] : List Nat).length) [9, 9]
        (padLen ([9, 9] : List Nat).length 2)) 0 [1, 1]).pending = [] ∧
    (16 + ([9, 9] : List Nat).length + padLen ([9, 9] : List Nat).length 2 + 1 + 2) % 16 = 0 :=
  prf_offset_never_fails idE 10 3 7 [9, 9] 2 0 [1, 1] (by decide)

/-! ## The radix classifier (claim C4) -/

theorem popBitsF_zero_arg (f : Nat) : popBitsF f 0 = 0 := by
  cases f <;> simp [popBitsF]

theorem bitLenF_zero_arg (f : Nat) : bitLenF f 0 = 0 := by
  cases f <;> simp [bitLenF]

theorem bitLenF_pos (f n : Nat) (hn : 1 ≤ n) (hf : 1 ≤ f) : 1 ≤ bitLenF f n := by
  obtain ⟨f, rfl⟩ : ∃ g, f = g + 1 := ⟨f - 1, by omega⟩
  simp only [bitLenF]
  split_ifs with h
  · omega
  · omega

theorem bitLenF_ge_two (f n : Nat) (hn : 2 ≤ n) (hf : 2 ≤ f) : 2 ≤ bitLenF f n := by
  obtain ⟨f, rfl⟩ : ∃ g, f = g + 1 := ⟨f - 1, by omega⟩
  simp only [bitLenF]
  split_ifs with h
  · omega
  · have : 1 ≤ bitLenF f (n / 2) := bitLenF_pos f (n / 2) (by omega) (by omega)
    omega

theorem popBitsF_eq_zero (f : Nat) : ∀ n : Nat, n ≤ f → popBitsF f n = 0 → n = 0 := by
  induction f with
  | zero => intro n h _; omega
  | succ f ih =>
    intro n hn h
    by_cases h0 : n = 0
    · exact h0
    · simp only [popBitsF, h0, if_false] at h
      have hdiv : n / 2 ≤ f := by omega
      have h2 := ih (n / 2) hdiv (by omega)
      omega

theorem popBitsF_one_pow (f : Nat) :
    ∀ n : Nat, n ≤ f → popBitsF f n = 1 → n = 2 ^ (bitLenF f n - 1) := by
  induction f with
  | zero => intro n h hp; rw [popBitsF] at hp; omega
  | succ f ih =>
    intro n hn hp
    by_cases h0 : n = 0
    · subst h0; rw [popBitsF_zero_arg] at hp; omega
    · simp only [popBitsF, h0, if_false] at hp
      simp only [bitLenF, h0, if_false]
      rcases Nat.mod_two_eq_zero_or_one n with h2 | h2
      · have hp2 : popBitsF f (n / 2) = 1 := by omega
        have hd2 : n / 2 ≤ f := by omega
        have hrec := ih (n / 2) hd2 hp2
        have hpos : 1 ≤ n / 2 := by
          rcases Nat.eq_zero_or_pos (n / 2) with hz | hz
          · rw [hz, popBitsF_zero_arg] at hp2; omega
          · exact hz
        have hbl : 1 ≤ bitLenF f (n / 2) := bitLenF_pos f (n / 2) hpos (by omega)
        have hn2 : n = 2 * (n / 2) := by omega
        have hexp : bitLenF f (n / 2) + 1 - 1 = bitLenF f (n / 2) := by omega
        rw [hexp]
        conv_lhs => rw [hn2, hrec]
        conv_rhs => rw [show bitLenF f (n / 2) = bitLenF f (n / 2) - 1 + 1 by omega]
        rw [pow_succ]
        exact Nat.mul_comm 2 _
      · have hp2 : popBitsF f (n / 2) = 0 := by omega
        have hd2 : n / 2 ≤ f := by omega
        have hz := popBitsF_eq_zero f (n / 2) hd2 hp2
        have hn1 : n = 1 := by omega
        subst hn1
        simp [bitLenF_zero_arg]

theorem ceil_div_mul_ge (k : Nat) (hk : 1 ≤ k) : 20 ≤ k * ((20 + k - 1) / k) := by
  have hd := Nat.div_add_mod (20 + k - 1) k
  have hr : (20 + k - 1) % k < k := Nat.mod_lt _ (by omega)
  obtain ⟨w, hw⟩ : ∃ w, k * ((20 + k - 1) / k) = w := ⟨_, rfl⟩
  rw [hw] at hd ⊢
  omega

theorem anyLoopF_spec (r : Nat) (hr : 2 ≤ r) :
    ∀ fuel domain len : Nat, 1 ≤ domain → domain = r ^ len →
      (anyLoopF r fuel domain len).2 = r ^ (anyLoopF r fuel domain len).1 ∧
      len ≤ (anyLoopF r fuel domain len).1 ∧
      (1000000 ≤ domain * 2 ^ fuel → 1000000 ≤ (anyLoopF r fuel domain len).2) ∧
      (domain < 1000000 → 1 ≤ fuel → len + 1 ≤ (anyLoopF r fuel domain len).1) := by
  intro fuel
  induction fuel with
  | zero =>
    intro domain len h1 hpow
    simp only [anyLoopF, pow_zero, Nat.mul_one]
    exact ⟨hpow, Nat.le_refl _, fun h => h, fun _ h => by omega⟩
  | succ fuel ih =>
    intro domain len h1 hpow
    simp only [anyLoopF]
    split_ifs with hd
    · have hd1 : 1 ≤ domain * r := Nat.le_trans h1 (Nat.le_mul_of_pos_right _ (by omega))
      have hd2 : domain * r = r ^ (len + 1) := by rw [pow_succ, ← hpow]
      have hrec := ih (domain * r) (len + 1) hd1 hd2
      refine ⟨hrec.1, by omega, ?_, fun _ _ => by have := hrec.2.1; omega⟩
      intro hbig
      apply hrec.2.2.1
      calc (1000000 : Nat) ≤ domain * 2 ^ (fuel + 1) := hbig
        _ = domain * 2 * 2 ^ fuel := by ring
        _ ≤ domain * r * 2 ^ fuel := by
            have : domain * 2 ≤ domain * r := Nat.mul_le_mul_left domain hr
            exact Nat.mul_le_mul_right _ this
    · exact ⟨hpow, Nat.le_refl _, fun _ => by omega, fun h _ => by omega⟩

/-- Facts recovered from a successful `Radix::from_u32`: the stored radix is
the argument, which lies in `[2, 65536]`. -/
theorem fromU32_ok_facts (r : Nat) (rx : Radix) (h : Radix.fromU32 r = .ok rx) :
    rx.toU32 = r ∧ 2 ≤ r ∧ r ≤ 65536 := by
  simp only [Radix.fromU32] at h
  split_ifs at h with h1 h2
  · simp only [Except.ok.injEq] at h
    subst h
    exact ⟨rfl, by omega, by omega⟩
  · simp only [Except.ok.injEq] at h
    subst h
    exact ⟨rfl, by omega, by omega⟩

/-- C4: `Radix::from_u32(r)` fails with `InvalidRadix(r)` exactly when `r` is
outside `[2, 65536]`; inside the range it yields the `PowerTwo` variant iff
`r` has exactly one set bit, with `r = 2 ^ log_radix`; and in every variant
the derived `min_len` satisfies `r ^ min_len ≥ 10^6` and `min_len ≥ 2`. -/
theorem radix_fromU32_spec (r : Nat) :
    (Radix.fromU32 r = .error ⟨r⟩ ↔ r < 2 ∨ 65536 < r) ∧
    (∀ rr m lg, Radix.fromU32 r = .ok (.powerTwo rr m lg) →
      rr = r ∧ countOnes r = 1 ∧ r = 2 ^ lg) ∧
    (2 ≤ r → r ≤ 65536 → countOnes r = 1 →
      ∃ m lg, Radix.fromU32 r = .ok (.powerTwo r m lg)) ∧
    (∀ rx, Radix.fromU32 r = .ok rx → 1000000 ≤ r ^ rx.minLen ∧ 2 ≤ rx.minLen) := by
  refine ⟨?_, ?_, ?_, ?_⟩
  · constructor
    · intro h
      by_contra hc
      push_neg at hc
      simp only [Radix.fromU32, if_neg (by omega : ¬(r < 2 ∨ 65536 < r))] at h
      split_ifs at h
    · intro h
      simp [Radix.fromU32, if_pos h]
  · intro rr m lg h
    simp only [Radix.fromU32] at h
    split_ifs at h with h1 h2
    · simp only [Except.ok.injEq, Radix.powerTwo.injEq] at h
      obtain ⟨hrr, _, hlg⟩ := h
      have hone : countOnes r = 1 := h2
      have hpow : r = 2 ^ (bitLen r - 1) := popBitsF_one_pow r r (Nat.le_refl r) hone
      exact ⟨hrr.symm, hone, by rw [← hlg]; exact hpow⟩
    · simp at h
  · intro hge hle hone
    refine ⟨max ((20 + (bitLen r - 1) - 1) / (bitLen r - 1)) 2, bitLen r - 1, ?_⟩
    simp only [Radix.fromU32, if_neg (by omega : ¬(r < 2 ∨ 65536 < r)), if_pos hone]
  · intro rx h
    have hfacts := fromU32_ok_facts r rx h
    simp only [Radix.fromU32, if_neg (by omega : ¬(r < 2 ∨ 65536 < r))] at h
    split_ifs at h with hone
    · simp only [Except.ok.injEq] at h
      subst h
      simp only [Radix.minLen]
      have hpow : r = 2 ^ (bitLen r - 1) := popBitsF_one_pow r r (Nat.le_refl r) hone
      have hlg1 : 1 ≤ bitLen r - 1 := by
        have := bitLenF_ge_two r r (by omega) (by omega)
        simp only [bitLen]
        omega
      set lg := bitLen r - 1 with hlg
      set m := max ((20 + lg - 1) / lg) 2 with hm
      have hq : 20 ≤ lg * ((20 + lg - 1) / lg) := ceil_div_mul_ge lg hlg1
      have hlgm : 20 ≤ lg * m := by
        have : (20 + lg - 1) / lg ≤ m := le_max_left _ _
        calc (20 : Nat) ≤ lg * ((20 + lg - 1) / lg) := hq
          _ ≤ lg * m := Nat.mul_le_mul_left lg this
      constructor
      · have h20 : (1000000 : Nat) ≤ 2 ^ 20 := by norm_num
        calc (1000000 : Nat) ≤ 2 ^ 20 := h20
          _ ≤ 2 ^ (lg * m) := Nat.pow_le_pow_right (by omega) hlgm
          _ = (2 ^ lg) ^ m := by rw [← pow_mul]
          _ = r ^ m := by rw [← hpow]
      · exact le_max_right _ _
    · simp only [Except.ok.injEq] at h
      subst h
      simp only [Radix.minLen]
      have hspec := anyLoopF_spec r (by omega) 20 r 1 (by omega) (by rw [pow_one])
      constructor
      · rw [← hspec.1]
        apply hspec.2.2.1
        calc (1000000 : Nat) ≤ 2 * 2 ^ 20 := by norm_num
          _ ≤ r * 2 ^ 20 := Nat.mul_le_mul_right _ (by omega)
      · have := hspec.2.2.2 (by omega) (by omega)
        omega

/-- Witness for `radix_fromU32_spec` at `r = 10`. -/
theorem radix_fromU32_spec_witness :
    1000000 ≤ 10 ^ (Radix.any 10 6).minLen ∧ 2 ≤ (Radix.any 10 6).minLen :=
  (radix_fromU32_spec 10).2.2.2 (Radix.any 10 6) (by decide)

/-! ## Reduction lemmas for `encrypt` and `decrypt` -/

theorem nsIsValid_iff (r : Nat) (xs : List Nat) :
    nsIsValid r xs = true ↔ ∀ dgt ∈ xs, dgt < r := by
  simp [nsIsValid]

theorem checkNsLength_ok (rx : Radix) (n : Nat) (hmin : rx.minLen ≤ n)
    (hmax : n ≤ 4294967295) : rx.checkNsLength n = .ok () := by
  rw [Radix.checkNsLength, if_neg (by omega), if_neg (by omega)]

theorem encrypt_eq_ok (E : List Nat → List Nat) (rx : Radix) (rounds : Nat)
    (tweak x : List Nat) (hval : nsIsValid rx.toU32 x = true)
    (hmin : rx.minLen ≤ x.length) (hmax : x.length ≤ 4294967295) :
    encrypt E rx rounds tweak x =
      .ok ((encState E rx rounds tweak x).1 ++ (encState E rx rounds tweak x).2) := by
  rw [encrypt, if_pos hval, checkNsLength_ok rx x.length hmin hmax]

theorem decrypt_eq_ok (E : List Nat → List Nat) (rx : Radix) (rounds : Nat)
    (tweak x : List Nat) (hval : nsIsValid rx.toU32 x = true)
    (hmin : rx.minLen ≤ x.length) (hmax : x.length ≤ 4294967295) :
    decrypt E rx rounds tweak x =
      .ok ((decState E rx rounds tweak x).1 ++ (decState E rx rounds tweak x).2) := by
  rw [decrypt, if_pos hval, checkNsLength_ok rx x.length hmin hmax]

theorem encrypt_eq_err_invalid (E : List Nat → List Nat) (rx : Radix) (rounds : Nat)
    (tweak x : List Nat) (hval : nsIsValid rx.toU32 x = false) :
    encrypt E rx rounds tweak x = .error (.invalidForRadix rx.toU32) := by
  rw [encrypt, if_neg (by simp [hval])]

theorem decrypt_eq_err_invalid (E : List Nat → List Nat) (rx : Radix) (rounds : Nat)
    (tweak x : List Nat) (hval : nsIsValid rx.toU32 x = false) :
    decrypt E rx rounds tweak x = .error (.invalidForRadix rx.toU32) := by
  rw [decrypt, if_neg (by simp [hval])]

theorem encrypt_eq_err_short (E : List Nat → List Nat) (rx : Radix) (rounds : Nat)
    (tweak x : List Nat) (hval : nsIsValid rx.toU32 x = true)
    (h : x.length < rx.minLen) :
    encrypt E rx rounds tweak x = .error (.tooShort x.length rx.minLen) := by
  rw [encrypt, if_pos hval, Radix.checkNsLength, if_pos h]

theorem decrypt_eq_err_short (E : List Nat → List Nat) (rx : Radix) (rounds : Nat)
    (tweak x : List Nat) (hval : nsIsValid rx.toU32 x = true)
    (h : x.length < rx.minLen) :
    decrypt E rx rounds tweak x = .error (.tooShort x.length rx.minLen) := by
  rw [decrypt, if_pos hval, Radix.checkNsLength, if_pos h]

theorem encrypt_eq_err_long (E : List Nat → List Nat) (rx : Radix) (rounds : Nat)
    (tweak x : List Nat) (hval : nsIsValid rx.toU32 x = true)
    (h1 : ¬x.length < rx.minLen) (h2 : 4294967295 < x.length) :
    encrypt E rx rounds tweak x = .error (.tooLong x.length 4294967295) := by
  rw [encrypt, if_pos hval, Radix.checkNsLength, if_neg h1, if_pos h2]

theorem decrypt_eq_err_long (E : List Nat → List Nat) (rx : Radix) (rounds : Nat)
    (tweak x : List Nat) (hval : nsIsValid rx.toU32 x = true)
    (h1 : ¬x.length < rx.minLen) (h2 : 4294967295 < x.length) :
    decrypt E rx rounds tweak x = .error (.tooLong x.length 4294967295) := by
  rw [decrypt, if_pos hval, Radix.checkNsLength, if_neg h1, if_pos h2]

/-! ## The Feistel round structure -/

theorem mod_sub_cancel (M a y : Nat) (hM : 0 < M) (ha : a < M) :
    ((a + y) % M + (M - y % M)) % M = a := by
  have h1 : ((a + y) % M + (M - y % M)) % M = (a + y + (M - y % M)) % M :=
    Nat.mod_add_mod _ _ _
  have hd := Nat.div_add_mod y M
  have hr : y % M < M := Nat.mod_lt _ hM
  obtain ⟨w, hw⟩ : ∃ w, M * (y / M) = w := ⟨_, rfl⟩
  rw [hw] at hd
  have h2 : a + y + (M - y % M) = a + M * (y / M + 1) := by
    rw [Nat.mul_add, hw, Nat.mul_one]
    omega
  rw [h1, h2, Nat.add_mul_mod_self_left]
  exact Nat.mod_eq_of_lt ha

theorem foldl_fun_congr {α : Type} (l : List Nat) :
    ∀ (g1 g2 : α → Nat → α) (a : α), (∀ s i, g1 s i = g2 s i) →
      l.foldl g1 a = l.foldl g2 a := by
  induction l with
  | nil => intros; rfl
  | cons head tail ih =>
    intro g1 g2 a h
    simp only [List.foldl_cons, h]
    exact ih g1 g2 _ h

/-- Lengths and validity of the halves through the encryption rounds: after
`k` rounds the half lengths are `(u, v)` for even `k` and `(v, u)` for odd
`k`, and all numerals stay below the radix. -/
theorem encFold_inv (E : List Nat → List Nat) (rx : Radix) (hr : 0 < rx.toU32)
    (b d u v : Nat) (prf0 : PrfState) (xa xb : List Nat)
    (hu : xa.length = u) (hv : xb.length = v)
    (hva : ∀ dgt ∈ xa, dgt < rx.toU32) (hvb : ∀ dgt ∈ xb, dgt < rx.toU32) :
    ∀ k : Nat,
      ((List.range k).foldl (encRound E rx b d u v prf0) (xa, xb)).1.length
          = (if k % 2 = 0 then u else v) ∧
      ((List.range k).foldl (encRound E rx b d u v prf0) (xa, xb)).2.length
          = (if k % 2 = 0 then v else u) ∧
      (∀ dgt ∈ ((List.range k).foldl (encRound E rx b d u v prf0) (xa, xb)).1,
          dgt < rx.toU32) ∧
      (∀ dgt ∈ ((List.range k).foldl (encRound E rx b d u v prf0) (xa, xb)).2,
          dgt < rx.toU32) := by
  intro k
  induction k with
  | zero => simpa using ⟨hu, hv, hva, hvb⟩
  | succ k ih =>
    rw [List.range_succ, List.foldl_append, List.foldl_cons, List.foldl_nil]
    obtain ⟨ih1, ih2, ih3, ih4⟩ := ih
    rcases Nat.mod_two_eq_zero_or_one k with hk | hk
    · have hk1 : (k + 1) % 2 = 1 := by omega
      simp only [hk, if_pos rfl] at ih1 ih2
      simp only [encRound, hk, if_pos rfl, hk1, Nat.one_ne_zero, if_false, if_neg]
      refine ⟨ih2, strNS_length _ _ _, ih4, ?_⟩
      exact strNS_digit_lt _ hr _ _
    · have hk1 : (k + 1) % 2 = 0 := by omega
      simp only [hk, Nat.one_ne_zero, if_false, if_neg] at ih1 ih2
      simp only [encRound, hk, hk1, Nat.one_ne_zero, if_false, if_neg, if_pos rfl]
      refine ⟨ih2, strNS_length _ _ _, ih4, ?_⟩
      exact strNS_digit_lt _ hr _ _

/-- A decryption round at index `i` undoes an encryption round at index `i`,
provided the `A` half has length `m_i` and valid numerals. -/
theorem decRound_encRound (E : List Nat → List Nat) (rx : Radix) (hr : 0 < rx.toU32)
    (b d u v : Nat) (prf0 : PrfState) (st : List Nat × List Nat) (i : Nat)
    (hlen : st.1.length = (if i % 2 = 0 then u else v))
    (hval : ∀ dgt ∈ st.1, dgt < rx.toU32) :
    decRound E rx b d u v prf0 (encRound E rx b d u v prf0 st i) i = st := by
  obtain ⟨A, B⟩ := st
  simp only [encRound, decRound, Prod.mk.injEq]
  refine ⟨?_, trivial⟩
  set r := rx.toU32 with hrdef
  set m := if i % 2 = 0 then u else v with hm
  set y := roundY E rx b d prf0 i B with hy
  have hM : 0 < r ^ m := Nat.pos_pow_of_pos m hr
  have hA : numNS r A < r ^ m := by
    rw [← hlen]
    exact numNS_lt_pow r hr A hval
  have hC : numNS r (strNS r m ((numNS r A + y) % r ^ m)) = (numNS r A + y) % r ^ m := by
    rw [numNS_strNS r hr, Nat.mod_mod]
  rw [hC, mod_sub_cancel (r ^ m) (numNS r A) y hM hA]
  have := strNS_numNS r hr A hval
  rw [hlen] at this
  exact this

/-- Peeling the first (highest-index) step off the reversed-index fold used by
`decrypt`. -/
theorem decFold_succ (E : List Nat → List Nat) (rx : Radix) (b d u v : Nat)
    (prf0 : PrfState) (k : Nat) (st : List Nat × List Nat) :
    (List.range (k + 1)).foldl
        (fun s i => decRound E rx b d u v prf0 s (k + 1 - 1 - i)) st
      = (List.range k).foldl (fun s i => decRound E rx b d u v prf0 s (k - 1 - i))
          (decRound E rx b d u v prf0 st k) := by
  rw [List.range_succ_eq_map, List.foldl_cons, List.foldl_map]
  have h0 : k + 1 - 1 - 0 = k := by omega
  simp only [h0]
  apply foldl_fun_congr
  intro s i
  congr 1
  omega

/-- The decryption loop inverts the encryption loop: running the rounds
`k−1, …, 0` on the output of rounds `0, …, k−1` restores the initial pair. -/
theorem decFold_encFold (E : List Nat → List Nat) (rx : Radix) (hr : 0 < rx.toU32)
    (b d u v : Nat) (prf0 : PrfState) (xa xb : List Nat)
    (hu : xa.length = u) (hv : xb.length = v)
    (hva : ∀ dgt ∈ xa, dgt < rx.toU32) (hvb : ∀ dgt ∈ xb, dgt < rx.toU32) :
    ∀ k : Nat,
      (List.range k).foldl (fun s i => decRound E rx b d u v prf0 s (k - 1 - i))
        ((List.range k).foldl (encRound E rx b d u v prf0) (xa, xb)) = (xa, xb) := by
  intro k
  induction k with
  | zero => rfl
  | succ k ih =>
    rw [decFold_succ]
    rw [List.range_succ, List.foldl_append, List.foldl_cons, List.foldl_nil]
    have hinv := encFold_inv E rx hr b d u v prf0 xa xb hu hv hva hvb k
    rw [decRound_encRound E rx hr b d u v prf0 _ k hinv.1 hinv.2.2.1]
    exact ih

/-- The halves produced by `encrypt` stay valid for the radix. -/
theorem encState_valid (E : List Nat → List Nat) (rx : Radix) (hr : 0 < rx.toU32)
    (rounds : Nat) (tweak x : List Nat) (hval : ∀ dgt ∈ x, dgt < rx.toU32) :
    (∀ dgt ∈ (encState E rx rounds tweak x).1, dgt < rx.toU32) ∧
    (∀ dgt ∈ (encState E rx rounds tweak x).2, dgt < rx.toU32) := by
  have hva : ∀ dgt ∈ x.take (x.length / 2), dgt < rx.toU32 :=
    fun dgt hm => hval dgt (List.take_subset _ _ hm)
  have hvb : ∀ dgt ∈ x.drop (x.length / 2), dgt < rx.toU32 :=
    fun dgt hm => hval dgt (List.drop_subset _ _ hm)
  have h := encFold_inv E rx hr (rx.calculateB (x.drop (x.length / 2)).length)
    (4 * ((rx.calculateB (x.drop (x.length / 2)).length + 3) / 4) + 4)
    (x.take (x.length / 2)).length (x.drop (x.length / 2)).length
    (prfCommon E
      (buildP rx.toU32 (x.take (x.length / 2)).length x.length tweak.length)
      tweak (padLen tweak.length (rx.calculateB (x.drop (x.length / 2)).length)))
    (x.take (x.length / 2)) (x.drop (x.length / 2)) rfl rfl hva hvb rounds
  exact ⟨h.2.2.1, h.2.2.2⟩

/-- Core of the round-trip: for an even round count (or an even-length input,
where the two halves have equal length) the decryption loop applied to the
concatenated encryption output recovers the original split, and the halves
of the encryption output sum to the input length. -/
theorem decState_encState (E : List Nat → List Nat) (rx : Radix) (hr : 0 < rx.toU32)
    (rounds : Nat) (tweak x : List Nat)
    (hpar : rounds % 2 = 0 ∨ x.length % 2 = 0)
    (hval : ∀ dgt ∈ x, dgt < rx.toU32) :
    decState E rx rounds tweak
        ((encState E rx rounds tweak x).1 ++ (encState E rx rounds tweak x).2)
      = (x.take (x.length / 2), x.drop (x.length / 2)) ∧
    (encState E rx rounds tweak x).1.length + (encState E rx rounds tweak x).2.length
      = x.length := by
  have hu0 : (x.take (x.length / 2)).length = x.length / 2 := by
    rw [List.length_take]
    exact Nat.min_eq_left (Nat.div_le_self _ _)
  have hv0 : (x.drop (x.length / 2)).length = x.length - x.length / 2 :=
    List.length_drop _ _
  have hva : ∀ dgt ∈ x.take (x.length / 2), dgt < rx.toU32 :=
    fun dgt hm => hval dgt (List.take_subset _ _ hm)
  have hvb : ∀ dgt ∈ x.drop (x.length / 2), dgt < rx.toU32 :=
    fun dgt hm => hval dgt (List.drop_subset _ _ hm)
  set xa := x.take (x.length / 2) with hxa
  set xb := x.drop (x.length / 2) with hxb
  set u := xa.length with huu
  set v := xb.length with hvv
  set b := rx.calculateB v with hb
  set d := 4 * ((b + 3) / 4) + 4 with hd
  set prf0 := prfCommon E (buildP rx.toU32 u x.length tweak.length) tweak
    (padLen tweak.length b) with hprf
  set F := encState E rx rounds tweak x with hF
  have hSdef : F = (List.range rounds).foldl (encRound E rx b d u v prf0) (xa, xb) := by
    rw [hF]
    rfl
  have hinv := encFold_inv E rx hr b d u v prf0 xa xb rfl rfl hva hvb rounds
  rw [← hSdef] at hinv
  have huv : rounds % 2 = 0 ∨ u = v := by
    rcases hpar with h | h
    · exact Or.inl h
    · right
      omega
  have hF1 : F.1.length = u := by
    rcases Nat.mod_two_eq_zero_or_one rounds with he | ho
    · have := hinv.1
      rwa [if_pos he] at this
    · have := hinv.1
      rw [if_neg (by omega)] at this
      rcases huv with h | h
      · omega
      · omega
  have hF2 : F.2.length = v := by
    rcases Nat.mod_two_eq_zero_or_one rounds with he | ho
    · have := hinv.2.1
      rwa [if_pos he] at this
    · have := hinv.2.1
      rw [if_neg (by omega)] at this
      rcases huv with h | h
      · omega
      · omega
  have hsum : F.1.length + F.2.length = x.length := by omega
  refine ⟨?_, hsum⟩
  have hylen : (F.1 ++ F.2).length = x.length := by
    rw [List.length_append, hsum]
  have htake : (F.1 ++ F.2).take (x.length / 2) = F.1 :=
    List.take_left' (by omega)
  have hdrop : (F.1 ++ F.2).drop (x.length / 2) = F.2 :=
    List.drop_left' (by omega)
  have hDdef : decState E rx rounds tweak (F.1 ++ F.2)
      = (List.range rounds).foldl
          (fun s i => decRound E rx b d u v prf0 s (rounds - 1 - i)) (F.1, F.2) := by
    simp only [decState]
    rw [hylen, htake, hdrop, hF1, hF2, ← hb, ← hd, ← hprf]
  rw [hDdef]
  have hpair : (F.1, F.2) = F := rfl
  rw [hpair, hSdef]
  exact decFold_encFold E rx hr b d u v prf0 xa xb rfl rfl hva hvb rounds

/-- C1 (amended): round-trip `decrypt (encrypt x) = x` for every engine built
from a valid radix, every tweak and every valid numeral string of valid
length, provided the round count is even or the length `n` is even.  (As
stated for *every* round count the claim fails: see
`ff1_roundtrip_claim_cex` — with an odd round count and odd `n` the final
halves have lengths `(v, u)` with `u ≠ v`, so decryption splits the
ciphertext at the wrong boundary.) -/
theorem ff1_decrypt_encrypt (E : List Nat → List Nat) (r : Nat) (rx : Radix)
    (hrx : Radix.fromU32 r = .ok rx) (rounds : Nat) (tweak x : List Nat)
    (hpar : rounds % 2 = 0 ∨ x.length % 2 = 0)
    (hval : nsIsValid r x = true)
    (hmin : rx.minLen ≤ x.length) (hmax : x.length ≤ 4294967295) :
    ∃ y, encrypt E rx rounds tweak x = .ok y ∧ decrypt E rx rounds tweak y = .ok x := by
  obtain ⟨htu, hr2, hr3⟩ := fromU32_ok_facts r rx hrx
  have hvalB : nsIsValid rx.toU32 x = true := by rw [htu]; exact hval
  have hvalP : ∀ dgt ∈ x, dgt < rx.toU32 := (nsIsValid_iff _ x).mp hvalB
  have hr0 : 0 < rx.toU32 := by omega
  have hmain := decState_encState E rx hr0 rounds tweak x hpar hvalP
  set F := encState E rx rounds tweak x with hF
  refine ⟨F.1 ++ F.2, encrypt_eq_ok E rx rounds tweak x hvalB hmin hmax, ?_⟩
  have hylen : (F.1 ++ F.2).length = x.length := by
    rw [List.length_append]
    exact hmain.2
  have hyvalP : ∀ dgt ∈ F.1 ++ F.2, dgt < rx.toU32 := by
    intro dgt hm
    rcases List.mem_append.mp hm with h | h
    · exact (encState_valid E rx hr0 rounds tweak x hvalP).1 dgt h
    · exact (encState_valid E rx hr0 rounds tweak x hvalP).2 dgt h
  have hyval : nsIsValid rx.toU32 (F.1 ++ F.2) = true := (nsIsValid_iff _ _).mpr hyvalP
  rw [decrypt_eq_ok E rx rounds tweak (F.1 ++ F.2) hyval
    (by rw [hylen]; exact hmin) (by rw [hylen]; exact hmax)]
  rw [hmain.1, List.take_append_drop]

/-- Witness for `ff1_decrypt_encrypt`: two rounds, radix 10, odd length 7. -/
theorem ff1_decrypt_encrypt_witness :
    ∃ y, encrypt idE (Radix.any 10 6) 2 [7] [1, 2, 3, 4, 5, 6, 7] = .ok y ∧
      decrypt idE (Radix.any 10 6) 2 [7] y = .ok [1, 2, 3, 4, 5, 6, 7] :=
  ff1_decrypt_encrypt idE 10 (Radix.any 10 6) (by decide) 2 [7] [1, 2, 3, 4, 5, 6, 7]
    (Or.inl (by decide)) (by decide) (by decide) (by decide)

set_option maxRecDepth 100000 in
/-- Counterexample to C1 as stated: the engine for radix 10 with the identity
block cipher and one Feistel round does not round-trip the valid length-7
input `1 2 3 4 5 6 7` — decryption of its encryption returns a length-6
string. -/
theorem ff1_roundtrip_claim_cex :
    Radix.fromU32 10 = Except.ok (Radix.any 10 6) ∧
    nsIsValid (Radix.any 10 6).toU32 [1, 2, 3, 4, 5, 6, 7] = true ∧
    (Radix.any 10 6).minLen ≤ 7 ∧
    encrypt idE (Radix.any 10 6) 1 [] [1, 2, 3, 4, 5, 6, 7]
      = Except.ok [4, 5, 6, 7, 0, 7, 0] ∧
    decrypt idE (Radix.any 10 6) 1 [] [4, 5, 6, 7, 0, 7, 0]
      = Except.ok [1, 2, 3, 4, 5, 6] ∧
    (Except.ok [1, 2, 3, 4, 5, 6] : Except NumeralStringError (List Nat))
      ≠ Except.ok [1, 2, 3, 4, 5, 6, 7] := by
  decide

/-! ## Length preservation (claim C8) -/

/-- The pair of half lengths through the decryption loop follows the step
`(a, b) ↦ (m_i, a)` (stated over the reversed round indices used by
`decrypt`). -/
theorem decFold_lengths_rev (E : List Nat → List Nat) (rx : Radix) (b d u v : Nat)
    (prf0 : PrfState) (rounds : Nat) (l : List Nat) :
    ∀ st : List Nat × List Nat,
      ((l.foldl (fun s i => decRound E rx b d u v prf0 s (rounds - 1 - i)) st).1.length,
        (l.foldl (fun s i => decRound E rx b d u v prf0 s (rounds - 1 - i)) st).2.length)
        = l.foldl (fun p i => (if (rounds - 1 - i) % 2 = 0 then u else v, p.1))
            (st.1.length, st.2.length) := by
  induction l with
  | nil => intro st; rfl
  | cons head tail ih =>
    intro st
    simp only [List.foldl_cons]
    rw [ih]
    congr 1
    simp [decRound, strNS_length]

/-- Folding the length step over the descending indices `j, j−1, …, 0` always
ends at `(u, v)` when `j ≥ 1`, whatever the starting pair. -/
theorem lenFold_down (u v : Nat) :
    ∀ j, 1 ≤ j → ∀ p : Nat × Nat,
      (List.range (j + 1)).foldl
          (fun q i => (if (j - i) % 2 = 0 then u else v, q.1)) p = (u, v) := by
  intro j
  induction j with
  | zero => intro h; omega
  | succ j ih =>
    intro _ p
    rw [List.range_succ_eq_map, List.foldl_cons, List.foldl_map]
    have hcongr : ∀ (q : Nat × Nat) (i : Nat),
        (if (j + 1 - Nat.succ i) % 2 = 0 then u else v, q.1)
          = (if (j - i) % 2 = 0 then u else v, q.1) := by
      intro q i
      have : j + 1 - Nat.succ i = j - i := by omega
      rw [this]
    rw [foldl_fun_congr _ _
      (fun q i => (if (j - i) % 2 = 0 then u else v, q.1)) _ hcongr]
    rcases Nat.eq_zero_or_pos j with hj | hj
    · subst hj
      rw [show List.range 1 = [0] from rfl]
      simp
    · exact ih hj _

/-- Decryption preserves the total length for every round count other than a
single round (where an odd-length input shrinks by one). -/
theorem decState_len (E : List Nat → List Nat) (rx : Radix) (rounds : Nat)
    (tweak x : List Nat) (hround : rounds ≠ 1 ∨ x.length % 2 = 0) :
    (decState E rx rounds tweak x).1.length + (decState E rx rounds tweak x).2.length
      = x.length := by
  have hu0 : (x.take (x.length / 2)).length = x.length / 2 := by
    rw [List.length_take]
    exact Nat.min_eq_left (Nat.div_le_self _ _)
  have hv0 : (x.drop (x.length / 2)).length = x.length - x.length / 2 :=
    List.length_drop _ _
  set xa := x.take (x.length / 2) with hxa
  set xb := x.drop (x.length / 2) with hxb
  set u := xa.length with huu
  set v := xb.length with hvv
  set b := rx.calculateB v with hb
  set d := 4 * ((b + 3) / 4) + 4 with hd
  set prf0 := prfCommon E (buildP rx.toU32 u x.length tweak.length) tweak
    (padLen tweak.length b) with hprf
  have hD : decState E rx rounds tweak x
      = (List.range rounds).foldl
          (fun s i => decRound E rx b d u v prf0 s (rounds - 1 - i)) (xa, xb) := rfl
  rw [hD]
  obtain rfl | rfl | ⟨k, rfl⟩ : rounds = 0 ∨ rounds = 1 ∨ ∃ k, rounds = k + 2 := by
    rcases rounds with _ | rounds
    · exact Or.inl rfl
    · rcases rounds with _ | k
      · exact Or.inr (Or.inl rfl)
      · exact Or.inr (Or.inr ⟨k, rfl⟩)
  · simp only [List.range_zero, List.foldl_nil]
    omega
  · have hev : x.length % 2 = 0 := by
      rcases hround with h | h
      · omega
      · exact h
    rw [show List.range 1 = [0] from rfl]
    simp only [List.foldl_cons, List.foldl_nil]
    simp [decRound, strNS_length]
    omega
  · have hlen := decFold_lengths_rev E rx b d u v prf0 (k + 2)
      (List.range (k + 2)) (xa, xb)
    rw [Prod.ext_iff] at hlen
    obtain ⟨e1, e2⟩ := hlen
    dsimp only at e1 e2
    rw [e1, e2]
    have hcongr : ∀ (q : Nat × Nat) (i : Nat),
        (if (k + 2 - 1 - i) % 2 = 0 then u else v, q.1)
          = (if (k + 1 - i) % 2 = 0 then u else v, q.1) := by
      intro q i
      have he : k + 2 - 1 - i = k + 1 - i := by omega
      rw [he]
    rw [foldl_fun_congr _ _
      (fun q i => (if (k + 1 - i) % 2 = 0 then u else v, q.1)) _ hcongr]
    rw [show (k + 2) = (k + 1) + 1 from rfl,
      lenFold_down u v (k + 1) (by omega) _]
    omega

/-- Encryption preserves the total length for every round count. -/
theorem encState_len (E : List Nat → List Nat) (rx : Radix) (hr : 0 < rx.toU32)
    (rounds : Nat) (tweak x : List Nat) (hval : ∀ dgt ∈ x, dgt < rx.toU32) :
    (encState E rx rounds tweak x).1.length + (encState E rx rounds tweak x).2.length
      = x.length := by
  have hu0 : (x.take (x.length / 2)).length = x.length / 2 := by
    rw [List.length_take]
    exact Nat.min_eq_left (Nat.div_le_self _ _)
  have hv0 : (x.drop (x.length / 2)).length = x.length - x.length / 2 :=
    List.length_drop _ _
  have hva : ∀ dgt ∈ x.take (x.length / 2), dgt < rx.toU32 :=
    fun dgt hm => hval dgt (List.take_subset _ _ hm)
  have hvb : ∀ dgt ∈ x.drop (x.length / 2), dgt < rx.toU32 :=
    fun dgt hm => hval dgt (List.drop_subset _ _ hm)
  have h := encFold_inv E rx hr (rx.calculateB (x.drop (x.length / 2)).length)
    (4 * ((rx.calculateB (x.drop (x.length / 2)).length + 3) / 4) + 4)
    (x.take (x.length / 2)).length (x.drop (x.length / 2)).length
    (prfCommon E
      (buildP rx.toU32 (x.take (x.length / 2)).length x.length tweak.length)
      tweak (padLen tweak.length (rx.calculateB (x.drop (x.length / 2)).length)))
    (x.take (x.length / 2)) (x.drop (x.length / 2)) rfl rfl hva hvb rounds
  have h1 := h.1
  have h2 := h.2.1
  rcases Nat.mod_two_eq_zero_or_one rounds with he | ho
  · rw [if_pos he] at h1 h2
    rw [show encState E rx rounds tweak x
      = (List.range rounds).foldl
        (encRound E rx (rx.calculateB (x.drop (x.length / 2)).length)
          (4 * ((rx.calculateB (x.drop (x.length / 2)).length + 3) / 4) + 4)
          (x.take (x.length / 2)).length (x.drop (x.length / 2)).length
          (prfCommon E
            (buildP rx.toU32 (x.take (x.length / 2)).length x.length tweak.length)
            tweak (padLen tweak.length (rx.calculateB (x.drop (x.length / 2)).length))))
        (x.take (x.length / 2), x.drop (x.length / 2)) from rfl]
    omega
  · rw [if_neg (by omega)] at h1 h2
    rw [show encState E rx rounds tweak x
      = (List.range rounds).foldl
        (encRound E rx (rx.calculateB (x.drop (x.length / 2)).length)
          (4 * ((rx.calculateB (x.drop (x.length / 2)).length + 3) / 4) + 4)
          (x.take (x.length / 2)).length (x.drop (x.length / 2)).length
          (prfCommon E
            (buildP rx.toU32 (x.take (x.length / 2)).length x.length tweak.length)
            tweak (padLen tweak.length (rx.calculateB (x.drop (x.length / 2)).length))))
        (x.take (x.length / 2), x.drop (x.length / 2)) from rfl]
    omega

/-- C8 (amended): for every valid input of valid length, `encrypt` preserves
the length for every round count, and `decrypt` preserves it for every round
count other than exactly one round on an odd-length input.  (As stated for
*every* round count the claim fails for `decrypt`: see
`ff1_length_claim_cex`.) -/
theorem ff1_length_amended (E : List Nat → List Nat) (r : Nat) (rx : Radix)
    (hrx : Radix.fromU32 r = .ok rx) (rounds : Nat) (tweak x : List Nat)
    (hval : nsIsValid r x = true)
    (hmin : rx.minLen ≤ x.length) (hmax : x.length ≤ 4294967295) :
    (∃ y, encrypt E rx rounds tweak x = .ok y ∧ y.length = x.length) ∧
    (rounds ≠ 1 ∨ x.length % 2 = 0 →
      ∃ z, decrypt E rx rounds tweak x = .ok z ∧ z.length = x.length) := by
  obtain ⟨htu, hr2, hr3⟩ := fromU32_ok_facts r rx hrx
  have hvalB : nsIsValid rx.toU32 x = true := by rw [htu]; exact hval
  have hvalP : ∀ dgt ∈ x, dgt < rx.toU32 := (nsIsValid_iff _ x).mp hvalB
  have hr0 : 0 < rx.toU32 := by omega
  constructor
  · refine ⟨_, encrypt_eq_ok E rx rounds tweak x hvalB hmin hmax, ?_⟩
    rw [List.length_append]
    exact encState_len E rx hr0 rounds tweak x hvalP
  · intro hround
    refine ⟨_, decrypt_eq_ok E rx rounds tweak x hvalB hmin hmax, ?_⟩
    rw [List.length_append]
    exact decState_len E rx rounds tweak x hround

/-- Witness for `ff1_length_amended`: three rounds (odd, `≠ 1`), length 7,
with the decrypt proviso discharged. -/
theorem ff1_length_amended_witness :
    (∃ y, encrypt idE (Radix.any 10 6) 3 [5] [0, 1, 2, 3, 4, 5, 6] = .ok y ∧
      y.length = ([0, 1, 2, 3, 4, 5, 6] : List Nat).length) ∧
    (∃ z, decrypt idE (Radix.any 10 6) 3 [5] [0, 1, 2, 3, 4, 5, 6] = .ok z ∧
      z.length = ([0, 1, 2, 3, 4, 5, 6] : List Nat).length) :=
  ⟨(ff1_length_amended idE 10 (Radix.any 10 6) (by decide) 3 [5] [0, 1, 2, 3, 4, 5, 6]
      (by decide) (by decide) (by decide)).1,
    (ff1_length_amended idE 10 (Radix.any 10 6) (by decide) 3 [5] [0, 1, 2, 3, 4, 5, 6]
      (by decide) (by decide) (by decide)).2 (Or.inl (by decide))⟩

set_option maxRecDepth 100000 in
/-- Counterexample to C8 as stated: with one Feistel round, radix 10 and the
identity block cipher, decrypting the valid length-7 input `0 1 2 3 4 5 6`
yields a length-6 output. -/
theorem ff1_length_claim_cex :
    Radix.fromU32 10 = Except.ok (Radix.any 10 6) ∧
    nsIsValid (Radix.any 10 6).toU32 [0, 1, 2, 3, 4, 5, 6] = true ∧
    (Radix.any 10 6).minLen ≤ ([0, 1, 2, 3, 4, 5, 6] : List Nat).length ∧
    (decrypt idE (Radix.any 10 6) 1 [5] [0, 1, 2, 3, 4, 5, 6]).map List.length
      = Except.ok 6 ∧
    ([0, 1, 2, 3, 4, 5, 6] : List Nat).length = 7 ∧ (6 : Nat) ≠ 7 := by
  decide

/-! ## Zero rounds (claim C9) -/

/-- C9: an engine built by `new_with_faistel_rounds` with a zero round count
returns `concat(split(x))` from both `encrypt` and `decrypt` — the Feistel
loop body never runs — and with the list model of the numeral-string
contract (`concat(split(x)) = x`) that is the input unchanged. -/
theorem ff1_zero_rounds (E : List Nat → List Nat) (r : Nat) (rx : Radix)
    (hrx : Radix.fromU32 r = .ok rx) (tweak x : List Nat)
    (hval : nsIsValid r x = true)
    (hmin : rx.minLen ≤ x.length) (hmax : x.length ≤ 4294967295) :
    encrypt E rx 0 tweak x = .ok (x.take (x.length / 2) ++ x.drop (x.length / 2)) ∧
    encrypt E rx 0 tweak x = .ok x ∧
    decrypt E rx 0 tweak x = .ok x := by
  obtain ⟨htu, hr2, hr3⟩ := fromU32_ok_facts r rx hrx
  have hvalB : nsIsValid rx.toU32 x = true := by rw [htu]; exact hval
  have he := encrypt_eq_ok E rx 0 tweak x hvalB hmin hmax
  have hd := decrypt_eq_ok E rx 0 tweak x hvalB hmin hmax
  have hE0 : encState E rx 0 tweak x = (x.take (x.length / 2), x.drop (x.length / 2)) :=
    rfl
  have hD0 : decState E rx 0 tweak x = (x.take (x.length / 2), x.drop (x.length / 2)) :=
    rfl
  rw [hE0] at he
  rw [hD0] at hd
  refine ⟨he, ?_, ?_⟩
  · rw [he, List.take_append_drop]
  · rw [hd, List.take_append_drop]

/-- Witness for `ff1_zero_rounds`. -/
theorem ff1_zero_rounds_witness :
    encrypt idE (Radix.any 10 6) 0 [3] [1, 2, 3, 4, 5, 6]
      = .ok (([1, 2, 3, 4, 5, 6] : List Nat).take (([1, 2, 3, 4, 5, 6] : List Nat).length / 2)
        ++ ([1, 2, 3, 4, 5, 6] : List Nat).drop (([1, 2, 3, 4, 5, 6] : List Nat).length / 2)) ∧
    encrypt idE (Radix.any 10 6) 0 [3] [1, 2, 3, 4, 5, 6] = .ok [1, 2, 3, 4, 5, 6] ∧
    decrypt idE (Radix.any 10 6) 0 [3] [1, 2, 3, 4, 5, 6] = .ok [1, 2, 3, 4, 5, 6] :=
  ff1_zero_rounds idE 10 (Radix.any 10 6) (by decide) [3] [1, 2, 3, 4, 5, 6]
    (by decide) (by decide) (by decide)

/-! ## Failure semantics (claims C2 and C10) -/

/-- C2: `encrypt` and `decrypt` fail with `InvalidForRadix(radix)` exactly
when some numeral is `≥ radix`; with `TooShort{ns_len, min_len}` when the
input is valid but shorter than `min_len`; with
`TooLong{ns_len, max_len = 2^32 − 1}` when it is valid but longer than
`2^32 − 1`; and succeed on every input passing those three checks — there
are no other failure modes. -/
theorem ff1_error_semantics (E : List Nat → List Nat) (rx : Radix) (rounds : Nat)
    (tweak x : List Nat) :
    (encrypt E rx rounds tweak x = .error (.invalidForRadix rx.toU32) ↔
      nsIsValid rx.toU32 x = false) ∧
    (decrypt E rx rounds tweak x = .error (.invalidForRadix rx.toU32) ↔
      nsIsValid rx.toU32 x = false) ∧
    (nsIsValid rx.toU32 x = true → x.length < rx.minLen →
      encrypt E rx rounds tweak x = .error (.tooShort x.length rx.minLen) ∧
      decrypt E rx rounds tweak x = .error (.tooShort x.length rx.minLen)) ∧
    (nsIsValid rx.toU32 x = true → rx.minLen ≤ x.length → 4294967295 < x.length →
      encrypt E rx rounds tweak x = .error (.tooLong x.length 4294967295) ∧
      decrypt E rx rounds tweak x = .error (.tooLong x.length 4294967295)) ∧
    (nsIsValid rx.toU32 x = true → rx.minLen ≤ x.length → x.length ≤ 4294967295 →
      (∃ y, encrypt E rx rounds tweak x = .ok y) ∧
      (∃ z, decrypt E rx rounds tweak x = .ok z)) := by
  refine ⟨?_, ?_, ?_, ?_, ?_⟩
  · constructor
    · intro h
      cases hB : nsIsValid rx.toU32 x
      · rfl
      · exfalso
        by_cases h1 : x.length < rx.minLen
        · rw [encrypt_eq_err_short E rx rounds tweak x hB h1] at h
          simp at h
        · by_cases h2 : 4294967295 < x.length
          · rw [encrypt_eq_err_long E rx rounds tweak x hB h1 h2] at h
            simp at h
          · rw [encrypt_eq_ok E rx rounds tweak x hB (by omega) (by omega)] at h
            simp at h
    · exact encrypt_eq_err_invalid E rx rounds tweak x
  · constructor
    · intro h
      cases hB : nsIsValid rx.toU32 x
      · rfl
      · exfalso
        by_cases h1 : x.length < rx.minLen
        · rw [decrypt_eq_err_short E rx rounds tweak x hB h1] at h
          simp at h
        · by_cases h2 : 4294967295 < x.length
          · rw [decrypt_eq_err_long E rx rounds tweak x hB h1 h2] at h
            simp at h
          · rw [decrypt_eq_ok E rx rounds tweak x hB (by omega) (by omega)] at h
            simp at h
    · exact decrypt_eq_err_invalid E rx rounds tweak x
  · intro hB h1
    exact ⟨encrypt_eq_err_short E rx rounds tweak x hB h1,
      decrypt_eq_err_short E rx rounds tweak x hB h1⟩
  · intro hB h1 h2
    exact ⟨encrypt_eq_err_long E rx rounds tweak x hB (by omega) h2,
      decrypt_eq_err_long E rx rounds tweak x hB (by omega) h2⟩
  · intro hB h1 h2
    exact ⟨⟨_, encrypt_eq_ok E rx rounds tweak x hB h1 h2⟩,
      ⟨_, decrypt_eq_ok E rx rounds tweak x hB h1 h2⟩⟩

/-- Witness for `ff1_error_semantics`: the success case at a concrete engine. -/
theorem ff1_error_semantics_witness :
    (∃ y, encrypt idE (Radix.any 10 6) 10 [] [1, 2, 3, 4, 5, 6] = .ok y) ∧
    (∃ z, decrypt idE (Radix.any 10 6) 10 [] [1, 2, 3, 4, 5, 6] = .ok z) :=
  (ff1_error_semantics idE (Radix.any 10 6) 10 [] [1, 2, 3, 4, 5, 6]).2.2.2.2
    (by decide) (by decide) (by decide)

/-- C10: the validity check runs before the length check in both `encrypt`
and `decrypt` — an input that is both invalid for the radix and of invalid
length reports `InvalidForRadix(radix)`, never `TooShort`/`TooLong`. -/
theorem ff1_validity_before_length (E : List Nat → List Nat) (rx : Radix)
    (rounds : Nat) (tweak x : List Nat)
    (hval : nsIsValid rx.toU32 x = false)
    (hlen : x.length < rx.minLen ∨ 4294967295 < x.length) :
    encrypt E rx rounds tweak x = .error (.invalidForRadix rx.toU32) ∧
    decrypt E rx rounds tweak x = .error (.invalidForRadix rx.toU32) :=
  ⟨encrypt_eq_err_invalid E rx rounds tweak x hval,
    decrypt_eq_err_invalid E rx rounds tweak x hval⟩

/-- Witness for `ff1_validity_before_length`: `[10, 11]` is invalid for
radix 10 and also shorter than `min_len = 6`; the error is
`InvalidForRadix`. -/
theorem ff1_validity_before_length_witness :
    encrypt idE (Radix.any 10 6) 10 [] [10, 11]
      = .error (.invalidForRadix (Radix.any 10 6).toU32) ∧
    decrypt idE (Radix.any 10 6) 10 [] [10, 11]
      = .error (.invalidForRadix (Radix.any 10 6).toU32) :=
  ff1_validity_before_length idE (Radix.any 10 6) 10 [] [10, 11]
    (by decide) (Or.inl (by decide))

/-! ## The S-expander (claim C7) -/

theorem take_append_le {α : Type} (L1 L2 : List α) (n : Nat) (h : n ≤ L1.length) :
    (L1 ++ L2).take n = L1.take n := by
  have hsplit : L1 ++ L2 = L1.take n ++ (L1.drop n ++ L2) := by
    rw [← List.append_assoc, List.take_append_drop]
  rw [hsplit]
  exact List.take_left' (by rw [List.length_take]; exact Nat.min_eq_left h)

theorem sBlocks_flatten_length (E : List Nat → List Nat) (r : List Nat)
    (hE : ∀ blk, (E blk).length = 16) (js : List Nat) :
    ((js.map (sBlock E r)).flatten).length = 16 * js.length := by
  induction js with
  | nil => rfl
  | cons head tail ih =>
    simp only [List.map_cons, List.flatten_cons, List.length_append, ih,
      List.length_cons, sBlock, hE]
    ring

/-- C7: for `d = 4·⌈b/4⌉ + 4`, `generate_s` yields exactly the first `d`
bytes of the unbounded stream `R || E(R⊕1) || E(R⊕2) || …` (XOR-ing the
big-endian 128-bit counter into `R`), its output has length exactly `d`, and
the number of block-cipher invocations — the counter blocks it maps `E`
over — is `(d + 15)/16 − 1 = ⌈d/16⌉ − 1`. -/
theorem generateS_spec (E : List Nat → List Nat) (r : List Nat) (hr : r.length = 16)
    (hE : ∀ blk, (E blk).length = 16) (b : Nat) :
    (∀ m, (4 * ((b + 3) / 4) + 4 + 15) / 16 - 1 ≤ m →
      generateS E r (4 * ((b + 3) / 4) + 4)
        = (sSpecStream E r m).take (4 * ((b + 3) / 4) + 4)) ∧
    (generateS E r (4 * ((b + 3) / 4) + 4)).length = 4 * ((b + 3) / 4) + 4 ∧
    ((List.range' 1 ((4 * ((b + 3) / 4) + 4 + 15) / 16 - 1)).map (sBlock E r)).length
      = (4 * ((b + 3) / 4) + 4 + 15) / 16 - 1 ∧
    4 * ((b + 3) / 4) + 4 ≤ 16 * ((4 * ((b + 3) / 4) + 4 + 15) / 16) ∧
    16 * ((4 * ((b + 3) / 4) + 4 + 15) / 16) < 4 * ((b + 3) / 4) + 4 + 16 := by
  set d := 4 * ((b + 3) / 4) + 4 with hd
  set k0 := (d + 15) / 16 - 1 with hk0
  have hd4 : 4 ≤ d := by omega
  have hceil1 : d ≤ 16 * ((d + 15) / 16) := by omega
  have hceil2 : 16 * ((d + 15) / 16) < d + 16 := by omega
  have hk0pos : (d + 15) / 16 = k0 + 1 := by omega
  have hstem : (r ++ ((List.range' 1 k0).map (sBlock E r)).flatten).length
      = 16 + 16 * k0 := by
    rw [List.length_append, hr, sBlocks_flatten_length E r hE, List.length_range']
  have hdle : d ≤ (r ++ ((List.range' 1 k0).map (sBlock E r)).flatten).length := by
    rw [hstem]
    omega
  refine ⟨?_, ?_, ?_, hceil1, hceil2⟩
  · intro m hm
    simp only [generateS, sSpecStream, ← hk0]
    have hsplit : List.range' 1 m
        = List.range' 1 k0 ++ List.range' (1 + k0) (m - k0) := by
      have h1 : List.range' 1 k0 ++ List.range' (1 + k0) (m - k0)
          = List.range' 1 (m - k0 + k0) := List.range'_append_1 1 k0 (m - k0)
      have h2 : m - k0 + k0 = m := by omega
      rw [h2] at h1
      exact h1.symm
    rw [hsplit, List.map_append, List.flatten_append, ← List.append_assoc]
    rw [take_append_le _ _ d hdle]
  · simp only [generateS, ← hk0]
    rw [List.length_take, hstem]
    omega
  · rw [List.length_map, List.length_range']

/-- Witness for `generateS_spec` at `b = 18` (so `d = 24`, one extra cipher
block). -/
theorem generateS_spec_witness :
    (generateS constE (List.replicate 16 0) (4 * ((18 + 3) / 4) + 4)).length
      = 4 * ((18 + 3) / 4) + 4 :=
  (generateS_spec constE (List.replicate 16 0) (by decide)
    (fun blk => by simp [constE]) 18).2.1

end FPE
